import Mathlib

/-!
Verification of the training-history aggregation core of dist-keras
(`distkeras/utils.py`): `history_executor` and `history_executors_average`.

The embedding models each Python dict `{'worker_id': ..., 'iteration': ...,
'history': ...}` as an `EventRecord`; the numpy metrics vectors become
`List ℚ` (idealised exact arithmetic in place of IEEE floats).  numpy's
1-D broadcasting addition is modelled by `np_add`, and the two Python
exceptions the function can raise (`ValueError` from `max()` on an empty
sequence at line 93, and numpy's broadcast `ValueError` at line 107) become
the two constructors of `AggError`.

One deliberate idealisation: `sum /= num_executors` with
`num_executors == 0` produces NaN vectors under IEEE semantics, while the
rational model yields the (division-by-zero) value `0`.  The zero-divisor
situation is therefore tracked explicitly through `num_contributors`, and
theorems about averaged values either assume a positive contributor count
or name the zero-contributor indices outright.
-/

/-- One progress sample reported by a worker, i.e. one element of the
`history` list consumed by `history_executors_average`.  Field names follow
the dict keys used in the source (`worker_id`, `iteration`, `history`). -/
structure EventRecord where
  worker_id : Nat
  iteration : Nat
  history   : List ℚ
deriving DecidableEq, Repr, Inhabited

/-- The two exceptions `history_executors_average` can raise: `noData` is
the `ValueError` from `max()` on an empty sequence (utils.py line 93),
`broadcast` is numpy's `ValueError` when `sum += ...` receives operand
shapes that cannot be broadcast together (line 107). -/
inductive AggError where
  | noData
  | broadcast
deriving DecidableEq, Repr

/-- The comparison key used by `executor_history.sort(key=lambda x: x['iteration'])`
(utils.py line 118). -/
def iter_le (a b : EventRecord) : Prop :=
  a.iteration ≤ b.iteration

instance : DecidableRel iter_le := fun a b => Nat.decLe a.iteration b.iteration

instance : IsTotal EventRecord iter_le := ⟨fun a b => Nat.le_total a.iteration b.iteration⟩

instance : IsTrans EventRecord iter_le := ⟨fun _ _ _ => Nat.le_trans⟩

instance : IsRefl EventRecord iter_le := ⟨fun a => Nat.le_refl a.iteration⟩

/-- utils.py lines 115-120: filter the records of one worker and sort them
ascending by `iteration`.  Python's `list.sort` is a stable sort; a stable
sort's output is uniquely determined, so the stable `insertionSort`
models it. -/
def history_executor (history : List EventRecord) (id : Nat) : List EventRecord :=
  (history.filter (fun h => h.worker_id == id)).insertionSort iter_le

/-- utils.py line 93: `max(history, key=lambda x: x['iteration'])['iteration']`,
for a non-empty `history` (the empty case raises and is handled by the
caller's embedding). -/
def max_iteration (history : List EventRecord) : Nat :=
  (history.map (fun r => r.iteration)).foldl max 0

/-- utils.py line 94: `max(history, key=lambda x: x['worker_id'])['worker_id']`,
for a non-empty `history`. -/
def max_executor (history : List EventRecord) : Nat :=
  (history.map (fun r => r.worker_id)).foldl max 0

/-- numpy addition of two 1-D arrays, as invoked by `sum += ...`
(utils.py line 107): equal lengths add element-wise, a length-1 operand is
broadcast across the other, and any other shape pair raises (`none`). -/
def np_add (a b : List ℚ) : Option (List ℚ) :=
  if a.length = b.length then some (List.zipWith (fun x y => x + y) a b)
  else if a.length = 1 then some (b.map (fun y => a.headD 0 + y))
  else if b.length = 1 then some (a.map (fun x => x + b.headD 0))
  else none

/-- numpy division of a 1-D array by an integer scalar, as invoked by
`sum /= num_executors` (utils.py line 109). -/
def np_div_scalar (a : List ℚ) (n : Nat) : List ℚ :=
  a.map (fun x => x / (n : ℚ))

/-- utils.py lines 102-107: the inner `for j in range(0, max_executor)` loop.
Walks the prepared per-executor histories, and for each executor satisfying
`len(histories[j]) - 1 >= i` (a Python-int comparison, hence the `Int` cast)
increments `num_executors` and adds `histories[j][i]['history']` into the
accumulator.  Returns `none` when the numpy addition raises. -/
def executor_sum (hs : List (List EventRecord)) (i : Nat) (n : Nat) (s : List ℚ) :
    Option (Nat × List ℚ) :=
  match hs with
  | [] => some (n, s)
  | h :: rest =>
    if (h.length : Int) - 1 ≥ (i : Int) then
      match np_add s ((h.getD i default).history) with
      | some s2 => executor_sum rest i (n + 1) s2
      | none => none
    else executor_sum rest i n s

/-- utils.py lines 102-110: one iteration of the outer loop.  The
accumulator starts as `np.zeros(2)` (line 103) and is finally divided by
`num_executors` (line 109). -/
def averaged_entry (histories : List (List EventRecord)) (i : Nat) : Option (List ℚ) :=
  (executor_sum histories i 0 (List.replicate 2 0)).map (fun p => np_div_scalar p.2 p.1)

/-- utils.py lines 101-110: the outer `for i in range(0, max_iteration)`
loop, collecting the averaged entries in order and propagating a numpy
broadcast failure. -/
def build_averaged (histories : List (List EventRecord)) : List Nat → Option (List (List ℚ))
  | [] => some []
  | i :: rest =>
    match averaged_entry histories i with
    | some v => (build_averaged histories rest).map (fun out => v :: out)
    | none => none

/-- utils.py lines 91-112: `history_executors_average`.  An empty input
makes `max()` raise (noData); otherwise the per-executor histories are
built for `range(0, max_executor)` — note: this excludes the executor with
the highest observed `worker_id` — and the averaged history is built for
`range(0, max_iteration)` — note: this yields `max(iteration)` entries,
not `max(iteration) + 1`. -/
def history_executors_average (history : List EventRecord) :
    Except AggError (List (List ℚ)) :=
  if history.isEmpty then .error .noData
  else
    let histories := (List.range (max_executor history)).map (history_executor history)
    match build_averaged histories (List.range (max_iteration history)) with
    | some out => .ok out
    | none => .error .broadcast

/-- The executor indices the code actually lets contribute at position `i`:
those `j` in `range(0, max_executor)` whose sorted history has an `i`-th
entry. -/
def contributors (history : List EventRecord) (i : Nat) : List Nat :=
  (List.range (max_executor history)).filter
    (fun j => decide (i < (history_executor history j).length))

/-- The divisor used at position `i` of the averaged history: the number of
contributing executors. -/
def num_contributors (history : List EventRecord) (i : Nat) : Nat :=
  (contributors history i).length

/-- The metrics vector at position `i` of executor `j`'s sorted history,
`histories[j][i]['history']` in the source. -/
def position_metric (history : List EventRecord) (j i : Nat) : List ℚ :=
  ((history_executor history j).getD i default).history

/-- Element-wise sum of width-2 metrics vectors, starting from
`np.zeros(2)`. -/
def vec_sum (vs : List (List ℚ)) : List ℚ :=
  vs.foldl (fun a v => List.zipWith (fun x y => x + y) a v) (List.replicate 2 0)

/-- Closed form of the entry the code produces at position `i` (established
below for width-2 inputs): position-`i` metrics of the contributors, summed
element-wise, divided by the contributor count. -/
def code_average_formula (history : List EventRecord) (i : Nat) : List ℚ :=
  np_div_scalar
    (vec_sum ((contributors history i).map (fun j => position_metric history j i)))
    (num_contributors history i)

/-- Spec-side definition, following the claim wording refuted below: the
contributors at position `i` drawn from worker identities `0 .. maxWorker`
with maxWorker one past the highest observed id, so that the highest-id
worker is included. -/
def claimed_contributors (history : List EventRecord) (i : Nat) : List Nat :=
  (List.range (max_executor history + 1)).filter
    (fun j => decide (i < (history_executor history j).length))

/-- Spec-side definition, following the claim wording refuted below: the
averaged value at position `i` over contributors drawn from all worker
identities up to and including the highest observed one. -/
def claimed_value_at (history : List EventRecord) (i : Nat) : List ℚ :=
  np_div_scalar
    (vec_sum ((claimed_contributors history i).map (fun j => position_metric history j i)))
    (claimed_contributors history i).length

/-! ### Helper lemmas about `foldl max`, used for lines 93-94 of the source -/

theorem foldl_max_init_le (l : List Nat) (a : Nat) : a ≤ l.foldl max a := by
  induction l generalizing a with
  | nil => exact Nat.le_refl a
  | cons x t ih => exact Nat.le_trans (Nat.le_max_left a x) (ih (max a x))

theorem le_foldl_max_of_mem {x : Nat} {l : List Nat} (a : Nat) (hx : x ∈ l) :
    x ≤ l.foldl max a := by
  induction l generalizing a with
  | nil => cases hx
  | cons y t ih =>
    rcases List.mem_cons.mp hx with rfl | hx
    · exact Nat.le_trans (Nat.le_max_right a x) (foldl_max_init_le t (max a x))
    · exact ih (max a y) hx

theorem foldl_max_mem (l : List Nat) (a : Nat) : l.foldl max a = a ∨ l.foldl max a ∈ l := by
  induction l generalizing a with
  | nil => exact Or.inl rfl
  | cons x t ih =>
    rcases ih (max a x) with h | h
    · rcases max_choice a x with hm | hm
      · exact Or.inl (by rw [List.foldl_cons, h, hm])
      · exact Or.inr (by rw [List.foldl_cons, h, hm]; exact List.mem_cons_self x t)
    · exact Or.inr (List.mem_cons_of_mem x h)

theorem foldl_max_perm {l₁ l₂ : List Nat} (h : l₁.Perm l₂) :
    ∀ a : Nat, l₁.foldl max a = l₂.foldl max a := by
  induction h with
  | nil => intro a; rfl
  | cons x _ ih => intro a; simpa using ih (max a x)
  | swap x y t =>
    intro a
    simp only [List.foldl_cons]
    rw [Nat.max_right_comm a y x]
  | trans _ _ ih₁ ih₂ => intro a; exact (ih₁ a).trans (ih₂ a)

/-! ### Properties of `max_iteration` and `max_executor` (lines 93-94) -/

theorem le_max_iteration {history : List EventRecord} {r : EventRecord}
    (hr : r ∈ history) : r.iteration ≤ max_iteration history :=
  le_foldl_max_of_mem 0 (List.mem_map_of_mem (fun r => r.iteration) hr)

theorem max_iteration_mem {history : List EventRecord} (hne : history ≠ []) :
    ∃ r ∈ history, r.iteration = max_iteration history := by
  rcases foldl_max_mem (history.map (fun r => r.iteration)) 0 with h | h
  · obtain ⟨r, hr⟩ := List.exists_mem_of_ne_nil history hne
    refine ⟨r, hr, Nat.le_antisymm (le_max_iteration hr) ?_⟩
    have h0 : max_iteration history = 0 := h
    omega
  · rcases List.mem_map.mp h with ⟨r, hr, hr2⟩
    exact ⟨r, hr, hr2⟩

theorem le_max_executor {history : List EventRecord} {r : EventRecord}
    (hr : r ∈ history) : r.worker_id ≤ max_executor history :=
  le_foldl_max_of_mem 0 (List.mem_map_of_mem (fun r => r.worker_id) hr)

theorem max_iteration_perm {l₁ l₂ : List EventRecord} (h : l₁.Perm l₂) :
    max_iteration l₁ = max_iteration l₂ := by
  unfold max_iteration
  exact foldl_max_perm (List.Perm.map (fun r => r.iteration) h) 0

theorem max_executor_perm {l₁ l₂ : List EventRecord} (h : l₁.Perm l₂) :
    max_executor l₁ = max_executor l₂ := by
  unfold max_executor
  exact foldl_max_perm (List.Perm.map (fun r => r.worker_id) h) 0

theorem max_executor_const {history : List EventRecord} {w : Nat} (hne : history ≠ [])
    (hw : ∀ r ∈ history, r.worker_id = w) : max_executor history = w := by
  rcases foldl_max_mem (history.map (fun r => r.worker_id)) 0 with h | h
  · obtain ⟨r, hr⟩ := List.exists_mem_of_ne_nil history hne
    have h1 : r.worker_id ≤ max_executor history := le_max_executor hr
    have h0 : max_executor history = 0 := h
    have h2 := hw r hr
    omega
  · rcases List.mem_map.mp h with ⟨r, hr, hr2⟩
    have : max_executor history = r.worker_id := hr2.symm
    rw [this]
    exact hw r hr

/-! ### Properties of `history_executor` (lines 115-120) -/

theorem history_executor_perm (history : List EventRecord) (id : Nat) :
    (history_executor history id).Perm
      (history.filter (fun h => h.worker_id == id)) :=
  List.perm_insertionSort iter_le _

theorem history_executor_sorted (history : List EventRecord) (id : Nat) :
    (history_executor history id).Pairwise iter_le :=
  List.sorted_insertionSort iter_le _

theorem mem_history_executor {history : List EventRecord} {id : Nat} {r : EventRecord} :
    r ∈ history_executor history id ↔ r ∈ history ∧ r.worker_id = id := by
  unfold history_executor
  rw [List.mem_insertionSort, List.mem_filter]
  simp

theorem history_executor_eq_nil {history : List EventRecord} {id : Nat}
    (h : ∀ r ∈ history, r.worker_id ≠ id) : history_executor history id = [] := by
  unfold history_executor
  rw [List.filter_eq_nil_iff.mpr (by simpa using h)]
  rfl

theorem history_executor_stable {history : List EventRecord} {id : Nat}
    {c : List EventRecord} (hc : c.Pairwise iter_le)
    (hs : c.Sublist (history.filter (fun h => h.worker_id == id))) :
    c.Sublist (history_executor history id) :=
  List.sublist_insertionSort hc hs

/-! ### The inner summation loop (lines 102-107) -/

theorem int_len_cond (n i : Nat) : ((n : Int) - 1 ≥ (i : Int)) ↔ i < n := by omega

theorem np_add_eq_of_length {s v : List ℚ} (h : s.length = v.length) :
    np_add s v = some (List.zipWith (fun x y => x + y) s v) := by
  unfold np_add
  rw [if_pos h]

theorem np_add_length_two {s v s' : List ℚ} (h : np_add s v = some s') (hs : s.length = 2) :
    s'.length = 2 := by
  unfold np_add at h
  by_cases h1 : s.length = v.length
  · rw [if_pos h1] at h
    have : s' = List.zipWith (fun x y => x + y) s v := (Option.some.injEq _ _ ▸ h).symm
    rw [this, List.length_zipWith, hs, ← h1, hs]
    omega
  · rw [if_neg h1] at h
    by_cases h2 : s.length = 1
    · omega
    · rw [if_neg h2] at h
      by_cases h3 : v.length = 1
      · rw [if_pos h3] at h
        have : s' = s.map (fun x => x + v.headD 0) := (Option.some.injEq _ _ ▸ h).symm
        rw [this, List.length_map, hs]
      · rw [if_neg h3] at h
        exact absurd h (by simp)

theorem executor_sum_length_two (i : Nat) :
    ∀ (hs : List (List EventRecord)) (n : Nat) (s : List ℚ) (m : Nat) (t : List ℚ),
      executor_sum hs i n s = some (m, t) → s.length = 2 → t.length = 2 := by
  intro hs
  induction hs with
  | nil =>
    intro n s m t h hlen
    have h2 : (n, s) = (m, t) := by simpa [executor_sum] using h
    simp only [Prod.mk.injEq] at h2
    rw [← h2.2]
    exact hlen
  | cons h rest ih =>
    intro n s m t hsum hlen
    unfold executor_sum at hsum
    by_cases hc : (h.length : Int) - 1 ≥ (i : Int)
    · rw [if_pos hc] at hsum
      cases hadd : np_add s ((h.getD i default).history) with
      | none => rw [hadd] at hsum; exact absurd hsum (by simp)
      | some s2 =>
        rw [hadd] at hsum
        exact ih (n + 1) s2 m t hsum (np_add_length_two hadd hlen)
    · rw [if_neg hc] at hsum
      exact ih n s m t hsum hlen

theorem executor_sum_eq (i : Nat) :
    ∀ (hs : List (List EventRecord)) (n : Nat) (s : List ℚ),
      (∀ h ∈ hs, i < h.length → ((h.getD i default).history).length = 2) →
      s.length = 2 →
      executor_sum hs i n s = some
        (n + (hs.filter (fun h => decide (i < h.length))).length,
         (hs.filter (fun h => decide (i < h.length))).foldl
           (fun a h => List.zipWith (fun x y => x + y) a ((h.getD i default).history)) s) := by
  intro hs
  induction hs with
  | nil => intro n s _ _; simp [executor_sum]
  | cons h rest ih =>
    intro n s hw hlen
    unfold executor_sum
    by_cases hc : i < h.length
    · have hv2 : ((h.getD i default).history).length = 2 :=
        hw h (List.mem_cons_self h rest) hc
      rw [if_pos ((int_len_cond _ _).mpr hc)]
      simp only [@np_add_eq_of_length s ((h.getD i default).history) (by rw [hlen, hv2])]
      rw [ih (n + 1) _ (fun g hg => hw g (List.mem_cons_of_mem h hg))
        (by rw [List.length_zipWith, hlen, hv2]; omega)]
      rw [List.filter_cons_of_pos (by simpa using hc), List.foldl_cons]
      have harith : n + 1 + (rest.filter (fun h => decide (i < h.length))).length
          = n + ((rest.filter (fun h => decide (i < h.length))).length + 1) := by omega
      rw [List.length_cons, harith]
    · rw [if_neg (by rw [int_len_cond]; exact hc)]
      rw [ih n s (fun g hg => hw g (List.mem_cons_of_mem h hg)) hlen]
      rw [List.filter_cons_of_neg (by simpa using hc)]

theorem executor_sum_all_nil (i : Nat) :
    ∀ (hs : List (List EventRecord)) (n : Nat) (s : List ℚ),
      (∀ h ∈ hs, h = []) → executor_sum hs i n s = some (n, s) := by
  intro hs
  induction hs with
  | nil => intro n s _; rfl
  | cons h rest ih =>
    intro n s hnil
    unfold executor_sum
    rw [hnil h (List.mem_cons_self h rest)]
    rw [if_neg (by rw [int_len_cond]; simp)]
    exact ih n s (fun g hg => hnil g (List.mem_cons_of_mem h hg))

/-! ### The outer loop (lines 101-110) -/

theorem build_averaged_eq (histories : List (List EventRecord)) (g : Nat → List ℚ) :
    ∀ is : List Nat, (∀ i ∈ is, averaged_entry histories i = some (g i)) →
      build_averaged histories is = some (is.map g) := by
  intro is
  induction is with
  | nil => intro _; rfl
  | cons i rest ih =>
    intro hall
    unfold build_averaged
    rw [hall i (List.mem_cons_self i rest), ih (fun j hj => hall j (List.mem_cons_of_mem i hj))]
    rfl

theorem build_averaged_length (histories : List (List EventRecord)) :
    ∀ (is : List Nat) (out : List (List ℚ)), build_averaged histories is = some out →
      out.length = is.length := by
  intro is
  induction is with
  | nil =>
    intro out h
    have : ([] : List (List ℚ)) = out := by simpa [build_averaged] using h
    rw [← this]
    rfl
  | cons i rest ih =>
    intro out h
    unfold build_averaged at h
    cases he : averaged_entry histories i with
    | none => rw [he] at h; exact absurd h (by simp)
    | some v =>
      rw [he] at h
      cases hb : build_averaged histories rest with
      | none => rw [hb] at h; exact absurd h (by simp)
      | some out' =>
        rw [hb] at h
        have : v :: out' = out := by simpa using h
        rw [← this, List.length_cons, ih out' hb, List.length_cons]

theorem build_averaged_mem (histories : List (List EventRecord)) :
    ∀ (is : List Nat) (out : List (List ℚ)), build_averaged histories is = some out →
      ∀ v ∈ out, ∃ i ∈ is, averaged_entry histories i = some v := by
  intro is
  induction is with
  | nil =>
    intro out h v hv
    have : ([] : List (List ℚ)) = out := by simpa [build_averaged] using h
    rw [← this] at hv
    cases hv
  | cons i rest ih =>
    intro out h v hv
    unfold build_averaged at h
    cases he : averaged_entry histories i with
    | none => rw [he] at h; exact absurd h (by simp)
    | some w =>
      rw [he] at h
      cases hb : build_averaged histories rest with
      | none => rw [hb] at h; exact absurd h (by simp)
      | some out' =>
        rw [hb] at h
        have hout : w :: out' = out := by simpa using h
        rw [← hout] at hv
        rcases List.mem_cons.mp hv with rfl | hv
        · exact ⟨i, List.mem_cons_self i rest, he⟩
        · rcases ih out' hb v hv with ⟨j, hj, hje⟩
          exact ⟨j, List.mem_cons_of_mem i hj, hje⟩

/-! ### Closed-form characterisation of the averaged history -/

theorem position_metric_mem {history : List EventRecord} {j i : Nat}
    (hi : i < (history_executor history j).length) :
    ∃ r ∈ history, r.worker_id = j ∧ r.history = position_metric history j i := by
  have hmem : (history_executor history j).getD i default ∈ history_executor history j := by
    rw [List.getD_eq_getElem?_getD, List.getElem?_eq_getElem hi]
    exact List.getElem_mem hi
  rcases mem_history_executor.mp hmem with ⟨h1, h2⟩
  exact ⟨_, h1, h2, rfl⟩

theorem position_metric_length {history : List EventRecord}
    (hw : ∀ r ∈ history, r.history.length = 2) {j i : Nat}
    (hi : i < (history_executor history j).length) :
    (position_metric history j i).length = 2 := by
  rcases position_metric_mem hi with ⟨r, hr, _, hmetric⟩
  rw [← hmetric]
  exact hw r hr

theorem averaged_entry_formula (history : List EventRecord)
    (hw : ∀ r ∈ history, r.history.length = 2) (i : Nat) :
    averaged_entry ((List.range (max_executor history)).map (history_executor history)) i
      = some (code_average_formula history i) := by
  have hcond : ∀ h ∈ (List.range (max_executor history)).map (history_executor history),
      i < h.length → ((h.getD i default).history).length = 2 := by
    intro h hmem hlen
    rcases List.mem_map.mp hmem with ⟨j, _, rfl⟩
    exact position_metric_length hw hlen
  unfold averaged_entry
  rw [executor_sum_eq i _ 0 _ hcond (by simp)]
  unfold code_average_formula vec_sum num_contributors contributors position_metric np_div_scalar
  rw [List.filter_map, List.foldl_map, List.foldl_map, List.length_map, Nat.zero_add]
  rfl

theorem hea_formula {history : List EventRecord} (hne : history ≠ [])
    (hw : ∀ r ∈ history, r.history.length = 2) :
    history_executors_average history
      = .ok ((List.range (max_iteration history)).map (code_average_formula history)) := by
  unfold history_executors_average
  rw [if_neg (by simp [hne])]
  show (match build_averaged ((List.range (max_executor history)).map
        (history_executor history)) (List.range (max_iteration history)) with
    | some out => Except.ok out
    | none => Except.error AggError.broadcast) = _
  rw [build_averaged_eq _ (code_average_formula history) _
    (fun i _ => averaged_entry_formula history hw i)]

/-! ### Permutation invariance, assuming per-worker iteration uniqueness -/

theorem history_executor_perm_eq {l₁ l₂ : List EventRecord} (hperm : l₁.Perm l₂)
    (hkey : ∀ a ∈ l₁, ∀ b ∈ l₁,
      a.worker_id = b.worker_id → a.iteration = b.iteration → a = b)
    (id : Nat) : history_executor l₁ id = history_executor l₂ id := by
  have hp : (history_executor l₁ id).Perm (history_executor l₂ id) :=
    (history_executor_perm l₁ id).trans
      ((hperm.filter _).trans (history_executor_perm l₂ id).symm)
  apply List.Perm.eq_of_sorted _ (history_executor_sorted l₁ id)
    (history_executor_sorted l₂ id) hp
  intro a b ha hb hab hba
  rcases mem_history_executor.mp ha with ⟨ha1, ha2⟩
  rcases mem_history_executor.mp hb with ⟨hb1, hb2⟩
  have hb1' : b ∈ l₁ := hperm.symm.subset hb1
  exact hkey a ha1 b hb1' (by rw [ha2, hb2]) (Nat.le_antisymm hab hba)

theorem hea_perm {l₁ l₂ : List EventRecord} (hperm : l₁.Perm l₂)
    (hkey : ∀ a ∈ l₁, ∀ b ∈ l₁,
      a.worker_id = b.worker_id → a.iteration = b.iteration → a = b) :
    history_executors_average l₁ = history_executors_average l₂ := by
  by_cases h1 : l₁ = []
  · have h2 : l₂ = [] := (h1 ▸ hperm : ([] : List EventRecord).Perm l₂).symm.eq_nil
    rw [h1, h2]
  · have h2 : l₂ ≠ [] := fun h => h1 (hperm.trans (h ▸ List.Perm.refl l₂)).eq_nil
    have hfun : history_executor l₁ = history_executor l₂ :=
      funext (history_executor_perm_eq hperm hkey)
    unfold history_executors_average
    rw [if_neg (by simp [h1]), if_neg (by simp [h2])]
    show (match build_averaged ((List.range (max_executor l₁)).map
          (history_executor l₁)) (List.range (max_iteration l₁)) with
      | some out => Except.ok out
      | none => Except.error AggError.broadcast) =
      (match build_averaged ((List.range (max_executor l₂)).map
          (history_executor l₂)) (List.range (max_iteration l₂)) with
      | some out => Except.ok out
      | none => Except.error AggError.broadcast)
    rw [hfun, max_iteration_perm hperm, max_executor_perm hperm]

/-! ### The single-worker situation -/

theorem single_worker_executor_nil {history : List EventRecord} {w : Nat}
    (hne : history ≠ []) (hw : ∀ r ∈ history, r.worker_id = w) :
    ∀ j, j < max_executor history → history_executor history j = [] := by
  intro j hj
  rw [max_executor_const hne hw] at hj
  apply history_executor_eq_nil
  intro r hr
  rw [hw r hr]
  omega

theorem single_worker_num_contributors {history : List EventRecord} {w : Nat}
    (hne : history ≠ []) (hw : ∀ r ∈ history, r.worker_id = w) :
    ∀ i, num_contributors history i = 0 := by
  intro i
  unfold num_contributors contributors
  rw [List.filter_eq_nil_iff.mpr]
  · rfl
  · intro j hj
    rw [single_worker_executor_nil hne hw j (List.mem_range.mp hj)]
    simp

theorem single_worker_hea {history : List EventRecord} {w : Nat}
    (hne : history ≠ []) (hw : ∀ r ∈ history, r.worker_id = w) :
    history_executors_average history
      = .ok (List.replicate (max_iteration history)
          (np_div_scalar (List.replicate 2 0) 0)) := by
  have hnil : ∀ h ∈ (List.range (max_executor history)).map (history_executor history),
      h = [] := by
    intro h hm
    rcases List.mem_map.mp hm with ⟨j, hj, rfl⟩
    exact single_worker_executor_nil hne hw j (List.mem_range.mp hj)
  unfold history_executors_average
  rw [if_neg (by simp [hne])]
  show (match build_averaged ((List.range (max_executor history)).map
        (history_executor history)) (List.range (max_iteration history)) with
    | some out => Except.ok out
    | none => Except.error AggError.broadcast) = _
  rw [build_averaged_eq _ (fun _ => np_div_scalar (List.replicate 2 0) 0) _
    (fun i _ => by
      unfold averaged_entry
      rw [executor_sum_all_nil i _ 0 _ hnil]
      rfl)]
  rw [List.map_const', List.length_range]

/-! ### Unfolding helper for the non-empty case -/

theorem hea_match {history : List EventRecord} (hne : history ≠ []) :
    history_executors_average history
      = match build_averaged ((List.range (max_executor history)).map
            (history_executor history)) (List.range (max_iteration history)) with
        | some out => Except.ok out
        | none => Except.error AggError.broadcast := by
  unfold history_executors_average
  rw [if_neg (by simp [hne])]

/-! ## Claim theorems -/

/-- Claim C1 (amended): for a non-empty width-2 input in which every
iteration index has at least one contributor, the averaged value at each
position `i` is computed over exactly the workers with identities
`0 .. maxExecutor - 1` — `maxExecutor` being the highest observed
`worker_id`, so the highest-id worker is excluded — whose sorted sequence
has length `> i`: the position-`i` metrics of each such worker (alignment
by position, not by the record's iteration value) are summed element-wise
and divided by the count of those contributors, never by the total worker
count. -/
theorem averaging_over_lower_executors (history : List EventRecord)
    (hne : history ≠ []) (hw : ∀ r ∈ history, r.history.length = 2)
    (_hpos : ∀ i, i < max_iteration history → 0 < num_contributors history i) :
    history_executors_average history
      = .ok ((List.range (max_iteration history)).map (code_average_formula history)) :=
  hea_formula hne hw

/-- Claim C1, witness: the amended theorem applied at a concrete input
(worker 0 with positions 0 and 1, worker 1 with position 1). -/
theorem averaging_over_lower_executors_witness :
    history_executors_average [⟨0, 0, [1, 1]⟩, ⟨0, 1, [2, 2]⟩, ⟨1, 1, [9, 9]⟩]
      = .ok ((List.range (max_iteration [⟨0, 0, [1, 1]⟩, ⟨0, 1, [2, 2]⟩, ⟨1, 1, [9, 9]⟩])).map
          (code_average_formula [⟨0, 0, [1, 1]⟩, ⟨0, 1, [2, 2]⟩, ⟨1, 1, [9, 9]⟩])) :=
  averaging_over_lower_executors _ (by simp) (by decide) (by decide)

/-- Claim C1, counterexample to the claim as stated: with workers 0 and 1
both reporting positions 0 and 1, the code averages only worker 0
(`range(0, max_executor)` excludes the highest id), producing `[[1, 1]]`,
while the claimed average over workers `0 .. maxWorker` inclusive is
`[[2, 2]]`. -/
theorem highest_worker_excluded_cex :
    history_executors_average
        [⟨0, 0, [1, 1]⟩, ⟨0, 1, [1, 1]⟩, ⟨1, 0, [3, 3]⟩, ⟨1, 1, [3, 3]⟩] = .ok [[1, 1]] ∧
    claimed_value_at
        [⟨0, 0, [1, 1]⟩, ⟨0, 1, [1, 1]⟩, ⟨1, 0, [3, 3]⟩, ⟨1, 1, [3, 3]⟩] 0 = [2, 2] ∧
    ([[(1 : ℚ), 1]] : List (List ℚ)) ≠ [[(2 : ℚ), 2]] := by
  refine ⟨?_, ?_, by decide⟩
  · norm_num [history_executors_average, max_iteration, max_executor, history_executor,
      build_averaged, averaged_entry, executor_sum, np_add, np_div_scalar, iter_le,
      List.insertionSort, List.orderedInsert, List.range_succ, List.replicate]
  · norm_num [claimed_value_at, claimed_contributors, position_metric, vec_sum,
      history_executor, max_executor, np_div_scalar, iter_le, List.insertionSort,
      List.orderedInsert, List.range_succ, List.replicate]

/-- Claim C2 (amended): for a non-empty input on which the aggregation
returns a value, the output averaged sequence has length
`max_iteration history`, i.e. the highest `iteration` value across all
records — not that value plus one — so the output covers iteration
indices `0 .. max(iteration) - 1` and drops the final one. -/
theorem output_length_max_iteration (history : List EventRecord)
    (out : List (List ℚ))
    (hok : history_executors_average history = .ok out) :
    out.length = max_iteration history ∧
    (∀ r ∈ history, r.iteration ≤ max_iteration history) ∧
    (∃ r ∈ history, r.iteration = max_iteration history) := by
  have hne : history ≠ [] := by
    intro h
    rw [h] at hok
    exact absurd hok (by simp [history_executors_average])
  rw [hea_match hne] at hok
  refine ⟨?_, fun r hr => le_max_iteration hr, max_iteration_mem hne⟩
  cases hb : build_averaged ((List.range (max_executor history)).map
      (history_executor history)) (List.range (max_iteration history)) with
  | none => rw [hb] at hok; exact absurd hok (by simp)
  | some res =>
    rw [hb] at hok
    have hres : res = out := by simpa using hok
    rw [← hres, build_averaged_length _ _ _ hb, List.length_range]

/-- Claim C2, witness: the amended theorem applied at a concrete input. -/
theorem output_length_max_iteration_witness :
    ([[(1 : ℚ), 1]] : List (List ℚ)).length
        = max_iteration [⟨0, 0, [1, 1]⟩, ⟨0, 1, [2, 2]⟩, ⟨1, 1, [9, 9]⟩] ∧
    (∀ r ∈ [⟨0, 0, [1, 1]⟩, ⟨0, 1, [2, 2]⟩, (⟨1, 1, [9, 9]⟩ : EventRecord)],
      r.iteration ≤ max_iteration [⟨0, 0, [1, 1]⟩, ⟨0, 1, [2, 2]⟩, ⟨1, 1, [9, 9]⟩]) ∧
    (∃ r ∈ [⟨0, 0, [1, 1]⟩, ⟨0, 1, [2, 2]⟩, (⟨1, 1, [9, 9]⟩ : EventRecord)],
      r.iteration = max_iteration [⟨0, 0, [1, 1]⟩, ⟨0, 1, [2, 2]⟩, ⟨1, 1, [9, 9]⟩]) :=
  output_length_max_iteration [⟨0, 0, [1, 1]⟩, ⟨0, 1, [2, 2]⟩, ⟨1, 1, [9, 9]⟩] [[1, 1]]
    (by norm_num [history_executors_average, max_iteration, max_executor, history_executor,
      build_averaged, averaged_entry, executor_sum, np_add, np_div_scalar, iter_le,
      List.insertionSort, List.orderedInsert, List.range_succ, List.replicate])

/-- Claim C2, counterexample to the claim as stated: a single record with
iteration 0 yields an empty output, while the claimed length
`max(iteration) + 1` is 1. -/
theorem output_length_cex :
    history_executors_average [⟨1, 0, [5, 5]⟩] = .ok [] ∧
    max_iteration [⟨1, 0, [5, 5]⟩] + 1 = 1 ∧
    ([] : List (List ℚ)).length ≠ 1 := by
  refine ⟨?_, by decide, by decide⟩
  norm_num [history_executors_average, max_iteration, max_executor, history_executor,
    build_averaged, averaged_entry, executor_sum, np_add, np_div_scalar, iter_le,
    List.insertionSort, List.orderedInsert, List.range_succ, List.replicate]

/-- Claim C3 (amended): the division by the contributor count is not
guarded.  On a non-empty width-2 input, when at some iteration index `i`
no worker's sorted sequence has length `> i`, the aggregation still
produces an ordinary entry at `i` — the quotient of the zero vector by
the contributor count 0 (a NaN vector under IEEE float semantics) —
instead of branching on the empty-contributor case or surfacing a
per-iteration anomaly. -/
theorem unguarded_zero_contributor_division (history : List EventRecord) (i : Nat)
    (hne : history ≠ []) (hw : ∀ r ∈ history, r.history.length = 2)
    (hz : num_contributors history i = 0) :
    history_executors_average history
      = .ok ((List.range (max_iteration history)).map (code_average_formula history)) ∧
    code_average_formula history i = np_div_scalar (List.replicate 2 0) 0 := by
  refine ⟨hea_formula hne hw, ?_⟩
  have hcontr : contributors history i = [] := List.length_eq_zero.mp hz
  unfold code_average_formula num_contributors
  rw [hcontr]
  rfl

/-- Claim C3, witness: the amended theorem applied at a concrete input
whose index 1 has no contributor. -/
theorem unguarded_zero_contributor_division_witness :
    history_executors_average [⟨0, 3, [1, 1]⟩, ⟨1, 0, [2, 2]⟩]
      = .ok ((List.range (max_iteration [⟨0, 3, [1, 1]⟩, ⟨1, 0, [2, 2]⟩])).map
          (code_average_formula [⟨0, 3, [1, 1]⟩, ⟨1, 0, [2, 2]⟩])) ∧
    code_average_formula [⟨0, 3, [1, 1]⟩, ⟨1, 0, [2, 2]⟩] 1
      = np_div_scalar (List.replicate 2 0) 0 :=
  unguarded_zero_contributor_division [⟨0, 3, [1, 1]⟩, ⟨1, 0, [2, 2]⟩] 1
    (by simp) (by decide) (by decide)

/-- Claim C3, counterexample to the claim as stated: index 1 of this input
has zero contributors, yet the aggregation returns an ordinary averaged
sequence with a plain entry at index 1 — the divisor 0 is used and no
anomaly is surfaced. -/
theorem zero_contributor_emitted_cex :
    num_contributors [⟨0, 3, [1, 1]⟩, ⟨1, 0, [2, 2]⟩] 1 = 0 ∧
    1 < max_iteration [⟨0, 3, [1, 1]⟩, ⟨1, 0, [2, 2]⟩] ∧
    history_executors_average [⟨0, 3, [1, 1]⟩, ⟨1, 0, [2, 2]⟩]
      = .ok [[1, 1], [0, 0], [0, 0]] := by
  refine ⟨by decide, by decide, ?_⟩
  norm_num [history_executors_average, max_iteration, max_executor, history_executor,
    build_averaged, averaged_entry, executor_sum, np_add, np_div_scalar, iter_le,
    List.insertionSort, List.orderedInsert, List.range_succ, List.replicate]

/-- Claim C4 (amended): when the aggregation is invoked with exactly one
worker's records, that worker — having the highest observed id — is
excluded from the executor range `range(0, max_executor)`, so no output
position ever draws on its metrics: every per-executor history that is
built is empty, every iteration index has zero contributors, and the
output is `max(iteration)` copies of the unguarded zero-divisor quotient
rather than the worker's own metrics sequence. -/
theorem single_worker_never_contributes (history : List EventRecord) (w : Nat)
    (hne : history ≠ []) (hw : ∀ r ∈ history, r.worker_id = w) :
    (∀ j, j < max_executor history → history_executor history j = []) ∧
    (∀ i, num_contributors history i = 0) ∧
    history_executors_average history
      = .ok (List.replicate (max_iteration history)
          (np_div_scalar (List.replicate 2 0) 0)) :=
  ⟨single_worker_executor_nil hne hw, single_worker_num_contributors hne hw,
    single_worker_hea hne hw⟩

/-- Claim C4, witness: the amended theorem applied to a single worker of
identity 2 reporting two positions. -/
theorem single_worker_never_contributes_witness :
    (∀ i, num_contributors [⟨2, 0, [5, 5]⟩, ⟨2, 1, [6, 6]⟩] i = 0) ∧
    history_executors_average [⟨2, 0, [5, 5]⟩, ⟨2, 1, [6, 6]⟩]
      = .ok (List.replicate (max_iteration [⟨2, 0, [5, 5]⟩, ⟨2, 1, [6, 6]⟩])
          (np_div_scalar (List.replicate 2 0) 0)) :=
  ⟨(single_worker_never_contributes [⟨2, 0, [5, 5]⟩, ⟨2, 1, [6, 6]⟩] 2
      (by simp) (by decide)).2.1,
   (single_worker_never_contributes [⟨2, 0, [5, 5]⟩, ⟨2, 1, [6, 6]⟩] 2
      (by simp) (by decide)).2.2⟩

/-- Claim C4, counterexample to the claim as stated: a single worker of
identity 1 reporting one position (its sorted metrics sequence is
`[[5, 5]]`) yields the empty output, not the worker's own sequence. -/
theorem single_worker_output_cex :
    history_executors_average [⟨1, 0, [5, 5]⟩] = .ok [] ∧
    history_executor [⟨1, 0, [5, 5]⟩] 1 = [⟨1, 0, [5, 5]⟩] ∧
    ([] : List (List ℚ)) ≠ [[(5 : ℚ), 5]] := by
  refine ⟨?_, ?_, by decide⟩
  · norm_num [history_executors_average, max_iteration, max_executor, history_executor,
      build_averaged, averaged_entry, executor_sum, np_add, np_div_scalar, iter_le,
      List.insertionSort, List.orderedInsert, List.range_succ, List.replicate]
  · norm_num [history_executor, iter_le, List.insertionSort, List.orderedInsert]

/-- Claim C5: invoked on an empty collection, the aggregation fails fast
with the no-data error (the `ValueError` raised by `max()` on an empty
sequence at line 93) rather than returning an empty averaged sequence. -/
theorem empty_input_no_data :
    history_executors_average [] = .error .noData := rfl

/-- Claim C6: for every collection and worker identity, `history_executor`
returns exactly the records whose `worker_id` equals `id` (a permutation
of the filtered collection), sorted ascending by `iteration`, with a
stable sort (any `iter_le`-sorted sublist of the filtered collection — in
particular any pair of equal-iteration records in their original order —
remains a sublist of the output); when no record has that `worker_id` the
result is the empty sequence, not an error. -/
theorem history_executor_contract (history : List EventRecord) (id : Nat) :
    (history_executor history id).Perm
        (history.filter (fun h => h.worker_id == id)) ∧
    (history_executor history id).Pairwise iter_le ∧
    (∀ c : List EventRecord, c.Pairwise iter_le →
      c.Sublist (history.filter (fun h => h.worker_id == id)) →
      c.Sublist (history_executor history id)) ∧
    ((∀ r ∈ history, r.worker_id ≠ id) → history_executor history id = []) :=
  ⟨history_executor_perm history id,
   history_executor_sorted history id,
   fun _ hc hs => history_executor_stable hc hs,
   fun hnone => history_executor_eq_nil hnone⟩

/-- Claim C6, witness: the contract applied at concrete inputs — an
identity no record carries yields the empty sequence, and a pair of
equal-iteration records keeps its original order in the output. -/
theorem history_executor_contract_witness :
    history_executor [⟨0, 0, [1, 1]⟩, ⟨1, 1, [4, 4]⟩] 5 = [] ∧
    List.Sublist [⟨0, 0, [1, 1]⟩, ⟨0, 0, [2, 2]⟩]
      (history_executor [⟨0, 0, [1, 1]⟩, ⟨0, 0, [2, 2]⟩, ⟨1, 2, [9, 9]⟩] 0) :=
  ⟨(history_executor_contract [⟨0, 0, [1, 1]⟩, ⟨1, 1, [4, 4]⟩] 5).2.2.2 (by decide),
   (history_executor_contract [⟨0, 0, [1, 1]⟩, ⟨0, 0, [2, 2]⟩, ⟨1, 2, [9, 9]⟩] 0).2.2.1
     [⟨0, 0, [1, 1]⟩, ⟨0, 0, [2, 2]⟩] (by decide) (by decide)⟩

/-- Claim C7 (amended): permuting the input collection leaves the output
unchanged, provided that within the collection no two distinct records
share both `worker_id` and `iteration` (duplicate keys make the stable
sort order, and hence the positional averages, depend on the input
order). -/
theorem hea_order_independent (l₁ l₂ : List EventRecord) (hperm : l₁.Perm l₂)
    (hkey : ∀ a ∈ l₁, ∀ b ∈ l₁,
      a.worker_id = b.worker_id → a.iteration = b.iteration → a = b) :
    history_executors_average l₁ = history_executors_average l₂ :=
  hea_perm hperm hkey

/-- Claim C7, witness: the amended theorem applied to a concrete
permutation of a three-record collection with pairwise-distinct keys. -/
theorem hea_order_independent_witness :
    history_executors_average [⟨1, 1, [4, 4]⟩, ⟨0, 0, [1, 1]⟩, ⟨0, 1, [2, 2]⟩]
      = history_executors_average [⟨0, 0, [1, 1]⟩, ⟨0, 1, [2, 2]⟩, ⟨1, 1, [4, 4]⟩] :=
  hea_order_independent _ _ (by decide) (by decide)

/-- Claim C7, counterexample to the claim as stated: two records of worker
0 share iteration 0 with different metrics; swapping them swaps positions
0 and 1 of worker 0's stable-sorted history, and the output changes. -/
theorem hea_order_dependent_cex :
    List.Perm [⟨0, 0, [1, 1]⟩, ⟨0, 0, [2, 2]⟩, (⟨1, 2, [9, 9]⟩ : EventRecord)]
      [⟨0, 0, [2, 2]⟩, ⟨0, 0, [1, 1]⟩, ⟨1, 2, [9, 9]⟩] ∧
    history_executors_average [⟨0, 0, [1, 1]⟩, ⟨0, 0, [2, 2]⟩, ⟨1, 2, [9, 9]⟩]
      = .ok [[1, 1], [2, 2]] ∧
    history_executors_average [⟨0, 0, [2, 2]⟩, ⟨0, 0, [1, 1]⟩, ⟨1, 2, [9, 9]⟩]
      = .ok [[2, 2], [1, 1]] ∧
    history_executors_average [⟨0, 0, [1, 1]⟩, ⟨0, 0, [2, 2]⟩, ⟨1, 2, [9, 9]⟩]
      ≠ history_executors_average [⟨0, 0, [2, 2]⟩, ⟨0, 0, [1, 1]⟩, ⟨1, 2, [9, 9]⟩] := by
  have h1 : history_executors_average [⟨0, 0, [1, 1]⟩, ⟨0, 0, [2, 2]⟩, ⟨1, 2, [9, 9]⟩]
      = .ok [[1, 1], [2, 2]] := by
    norm_num [history_executors_average, max_iteration, max_executor, history_executor,
      build_averaged, averaged_entry, executor_sum, np_add, np_div_scalar, iter_le,
      List.insertionSort, List.orderedInsert, List.range_succ, List.replicate]
  have h2 : history_executors_average [⟨0, 0, [2, 2]⟩, ⟨0, 0, [1, 1]⟩, ⟨1, 2, [9, 9]⟩]
      = .ok [[2, 2], [1, 1]] := by
    norm_num [history_executors_average, max_iteration, max_executor, history_executor,
      build_averaged, averaged_entry, executor_sum, np_add, np_div_scalar, iter_le,
      List.insertionSort, List.orderedInsert, List.range_succ, List.replicate]
  refine ⟨by decide, h1, h2, ?_⟩
  rw [h1, h2]
  simp only [ne_eq, Except.ok.injEq]
  decide

/-- Claim C8 (amended): no width validation happens at ingestion.  A
record whose metrics width is 1 is silently broadcast across the width-2
accumulator and averaged; a record whose width is incompatible (here 3)
raises numpy's broadcast error only at the aggregation step that touches
it, not at ingestion; and an incompatible record that no aggregation step
reaches (here one belonging to the excluded highest-id worker) causes no
error at all. -/
theorem no_ingestion_width_check (x : ℚ) :
    history_executors_average [⟨0, 0, [x]⟩, ⟨1, 1, [1, 1]⟩] = .ok [[x, x]] ∧
    history_executors_average [⟨0, 0, [x, x, x]⟩, ⟨1, 1, [1, 1]⟩] = .error .broadcast ∧
    history_executors_average [⟨0, 0, [1, 1]⟩, ⟨0, 1, [3, 3]⟩, ⟨1, 0, [x, x, x]⟩]
      = .ok [[1, 1]] := by
  refine ⟨?_, ?_, ?_⟩ <;>
    norm_num [history_executors_average, max_iteration, max_executor, history_executor,
      build_averaged, averaged_entry, executor_sum, np_add, np_div_scalar, iter_le,
      List.insertionSort, List.orderedInsert, List.range_succ, List.replicate]

/-- Claim C8, counterexample to the claim as stated: a record of metrics
width 1 in a batch whose other record has width 2 is not rejected with a
width-mismatch error at ingestion — the batch is processed to completion,
the single value silently broadcast (padded) across both accumulator
slots. -/
theorem width_mismatch_not_rejected_cex :
    history_executors_average [⟨0, 0, [7]⟩, ⟨1, 1, [1, 1]⟩] = .ok [[7, 7]] := by
  norm_num [history_executors_average, max_iteration, max_executor, history_executor,
    build_averaged, averaged_entry, executor_sum, np_add, np_div_scalar, iter_le,
    List.insertionSort, List.orderedInsert, List.range_succ, List.replicate]

/-- Claim C9: for every collection and worker identity, the output of
`history_executor` is a permutation of the multiset of input records whose
`worker_id` equals `id`: its length equals the number of matching records,
every record occurs in the output exactly as often as among the matching
inputs (so nothing is dropped or duplicated), and every output element is
one of the matching input records unchanged. -/
theorem history_executor_multiset (history : List EventRecord) (id : Nat) :
    (history_executor history id).length
        = (history.filter (fun h => h.worker_id == id)).length ∧
    (∀ r : EventRecord, (history_executor history id).count r
        = (history.filter (fun h => h.worker_id == id)).count r) ∧
    (∀ r ∈ history_executor history id, r ∈ history ∧ r.worker_id = id) :=
  ⟨(history_executor_perm history id).length_eq,
   fun r => (history_executor_perm history id).count_eq r,
   fun _ hr => mem_history_executor.mp hr⟩

/-- Claim C10: whenever the aggregation returns a value, every element of
the output sequence is a vector of width exactly 2 — the accumulator
starts as `np.zeros(2)` regardless of any run-level configured metrics
width, and both the broadcast addition and the scalar division preserve
that width. -/
theorem output_width_two (history : List EventRecord) (out : List (List ℚ))
    (hok : history_executors_average history = .ok out) :
    ∀ v ∈ out, v.length = 2 := by
  have hne : history ≠ [] := by
    intro h
    rw [h] at hok
    exact absurd hok (by simp [history_executors_average])
  rw [hea_match hne] at hok
  cases hb : build_averaged ((List.range (max_executor history)).map
      (history_executor history)) (List.range (max_iteration history)) with
  | none => rw [hb] at hok; exact absurd hok (by simp)
  | some res =>
    rw [hb] at hok
    have hres : res = out := by simpa using hok
    intro v hv
    rcases build_averaged_mem _ _ _ hb v (hres ▸ hv) with ⟨i, _, he⟩
    unfold averaged_entry at he
    cases hsum : executor_sum ((List.range (max_executor history)).map
        (history_executor history)) i 0 (List.replicate 2 0) with
    | none => rw [hsum] at he; exact absurd he (by simp)
    | some p =>
      rw [hsum] at he
      have hv2 : v = np_div_scalar p.2 p.1 := by simpa using he.symm
      rw [hv2]
      unfold np_div_scalar
      rw [List.length_map]
      exact executor_sum_length_two i _ 0 _ p.1 p.2 (by rw [hsum]) (by simp)

/-- Claim C10, witness: the theorem applied at a concrete input whose
output has the single entry `[1, 1]`. -/
theorem output_width_two_witness :
    ([(1 : ℚ), 1] : List ℚ).length = 2 :=
  output_width_two [⟨0, 0, [1, 1]⟩, ⟨0, 1, [2, 2]⟩, ⟨1, 1, [9, 9]⟩] [[1, 1]]
    (by norm_num [history_executors_average, max_iteration, max_executor, history_executor,
      build_averaged, averaged_entry, executor_sum, np_add, np_div_scalar, iter_le,
      List.insertionSort, List.orderedInsert, List.range_succ, List.replicate])
    [1, 1] (by simp)
